import Mathlib

/-!  Verification development for the line2vec constrained-optimization core
(`src/main.py` and `src/error.py`).

The Python code is shallowly embedded.  Floating-point values become exact
rationals; `np.log` and `np.sqrt` become explicit function parameters `log`
and `sqrt` (the properties proved below either hold for every such function,
or take as hypotheses exactly the facts needed about the values at which the
function is applied); Python dicts become association lists queried by
`findVal`; code that can raise returns `Option`.  -/

set_option linter.unusedVariables false
set_option linter.unreachableTactic false
set_option linter.unusedTactic false
set_option linter.unnecessarySeqFocus false

/-- An edge is an ordered pair of node identifiers, in storage orientation.
ℤs are integers (`nodetype=int` in `read_graph`). -/
abbrev Edge := ℤ × ℤ

/-- The input graph as materialized by `read_graph`: a node list and an edge
list (undirected storage: each edge is stored once, in one orientation). -/
structure Graph where
  nodes : List ℤ
  edges : List Edge

/-- Dictionary lookup on an association list (Python `dict[k]`, `k in dict`). -/
def findVal {κ ν : Type} [DecidableEq κ] : List (κ × ν) → κ → Option ν
  | [], _ => none
  | kv :: rest, k => if kv.1 = k then some kv.2 else findVal rest k

/-- First index of `v` in `l`, as `np.where(nodes == v)[0][0]`; returns
`l.length` when `v` is absent (the Python code would fail in that case, so
theorems using this assume membership). -/
def whereIdx : List ℤ → ℤ → ℕ
  | [], _ => 0
  | x :: xs, v => if x = v then 0 else whereIdx xs v + 1

/-- Componentwise vector sum (numpy `+=` on a row vector). -/
def addVec (xs ys : List ℚ) : List ℚ := List.zipWith (fun a b => a + b) xs ys

/-- The all-zero vector, `np.zeros((1, vector_size))`. -/
def zeroVec (D : ℕ) : List ℚ := List.replicate D 0

/-- Squared Euclidean distance: the sum of squared componentwise differences.
`np.linalg.norm(x - y)` is `sqrt (dist2 x y)` for the ambient `sqrt`. -/
def dist2 (xs ys : List ℚ) : ℚ := (List.zipWith (fun a b => (a - b) ^ 2) xs ys).sum

/-- Unweighted node degree as in `dict(G.degree())` of networkx: the number
of incidences of `v` among the stored edges (a self-loop counts twice). -/
def degree (G : Graph) (v : ℤ) : ℕ :=
  (G.edges.map (fun e => (if e.1 = v then 1 else 0) + (if e.2 = v then 1 else 0))).sum

/-- `total_degree = np.sum(list(degree_dict.values()))` in
`modify_edge_weights`. -/
def totalDegree (G : Graph) : ℕ := (G.nodes.map (degree G)).sum

/-- The neighbor lists over an edge list: networkx `G.neighbors(v)`, also the
dictionary of neighbors prepared at the end of `main`. -/
def neighborsAux (l : List Edge) (v : ℤ) : List ℤ :=
  l.filterMap (fun e => if e.1 = v then some e.2 else if e.2 = v then some e.1 else none)

/-- Neighbors of `v` in `G`. -/
def neighborsOf (G : Graph) (v : ℤ) : List ℤ := neighborsAux G.edges v

/-- Python `tuple(sorted(edge))` for an integer pair. -/
def sortPair (e : Edge) : Edge := if e.1 ≤ e.2 then e else (e.2, e.1)

/-- The modified weight of one original edge, from `modify_edge_weights`:
`max(np.log(total_degree / (deg u * deg v)) + epsilon, epsilon)`, with
`np.log` abstracted as `log`. -/
def edgeWeight (log : ℚ → ℚ) (eps : ℚ) (G : Graph) (e : Edge) : ℚ :=
  max (log ((totalDegree G : ℚ) / ((degree G e.1 : ℚ) * (degree G e.2 : ℚ))) + eps) eps

/-- Embeds `modify_edge_weights` (main.py lines 212-227): the returned dict,
keyed by the sorted endpoint pair. -/
def modify_edge_weights (log : ℚ → ℚ) (eps : ℚ) (G : Graph) : List (Edge × ℚ) :=
  G.edges.map (fun e => (sortPair e, edgeWeight log eps G e))

/-- The lookup pattern of `prepare_node_weights`: try `(node, neighbor)`
first, then `(neighbor, node)`.  A doubly-missing key would raise `KeyError`
in Python; theorems only use this where one orientation is present. -/
def lookupEither (d : List (Edge × ℚ)) (a b : ℤ) : ℚ :=
  match findVal d (a, b) with
  | some w => w
  | none => (findVal d (b, a)).getD 0

/-- One entry of the dict built by `prepare_node_weights` (lines 230-240):
the sum, over the node's neighbors, of the modified weight of the connecting
edge looked up in either orientation. -/
def node_weight (G : Graph) (d : List (Edge × ℚ)) (v : ℤ) : ℚ :=
  ((neighborsOf G v).map (fun u => lookupEither d v u)).sum

/-- Python `set(e)` of an edge tuple. -/
def setOf2 (e : Edge) : List ℤ := if e.1 = e.2 then [e.1] else [e.1, e.2]

/-- Set intersection on small node lists. -/
def interL (xs ys : List ℤ) : List ℤ := xs.filter (fun x => decide (x ∈ ys))

/-- Set difference on small node lists. -/
def diffL (xs ys : List ℤ) : List ℤ := xs.filter (fun x => decide (x ∉ ys))

/-- Lines 250-263 of `build_weighted_line_graph`: split a line-graph edge
into `(common vertex, start vertex, end vertex)`, with the fallback ordering
used for the self-loop / parallel-edge degeneracies. -/
def resolveVertices (e1 e2 : Edge) : ℤ × ℤ × ℤ :=
  let common := interL (setOf2 e1) (setOf2 e2)
  let start := diffL (setOf2 e1) common
  let stop := diffL (setOf2 e2) common
  if common.length = 1 ∧ start ≠ [] ∧ stop ≠ [] then
    (common.headI, start.headI, stop.headI)
  else
    (e1.2, e1.1, e2.2)

/-- Lines 265-271: the degree-contribution factor with edge 1 as source.
The guard tests the degree of the start (far) vertex. -/
def weightContriSrcEdge1 (degStart degCommon : ℕ) : ℚ :=
  if degStart = 1 then 1 else (degStart : ℚ) / ((degStart : ℚ) + (degCommon : ℚ))

/-- Lines 284-290: the degree-contribution factor with edge 2 as source.
As written in the source, the guard tests `degree_end_vertex_edge_2`, which
is the degree of the COMMON vertex, not of the far endpoint. -/
def weightContriSrcEdge2 (degEnd degCommon : ℕ) : ℚ :=
  if degCommon = 1 then 1 else (degEnd : ℚ) / ((degEnd : ℚ) + (degCommon : ℚ))

/-- Lines 276-280 and 295-299: the weight-contribution factor together with
the count of emitted `'In impossible case!'` diagnostics (0 or 1).  When the
denominator is exactly 0 the factor is defined to be 0; the division is only
performed on the nonzero branch. -/
def weightContriDest (wDest denom : ℚ) : ℚ × ℕ :=
  if denom = 0 then (0, 1) else (wDest / denom, 0)

/-- The body of the loop of `build_weighted_line_graph` (lines 249-301) for
one line-graph edge `(e1, e2)`: the final averaged weight and the number of
zero-denominator diagnostics emitted for this edge. -/
def lineEdgeData (deg : ℤ → ℕ) (ewd : List (Edge × ℚ)) (nwd : ℤ → ℚ)
    (e1 e2 : Edge) : ℚ × ℕ :=
  let r := resolveVertices e1 e2
  let common := r.1
  let start := r.2.1
  let stop := r.2.2
  let contriSrc1 := weightContriSrcEdge1 (deg start) (deg common)
  let dest1 := weightContriDest ((findVal ewd e2).getD 0) (nwd common - (findVal ewd e1).getD 0)
  let w1 := contriSrc1 * dest1.1
  let contriSrc2 := weightContriSrcEdge2 (deg stop) (deg common)
  let dest2 := weightContriDest ((findVal ewd e1).getD 0) (nwd common - (findVal ewd e2).getD 0)
  let w2 := contriSrc2 * dest2.1
  ((w1 + w2) / 2, dest1.2 + dest2.2)

/-- Embeds `build_weighted_line_graph` (lines 243-303).  `L` is the edge list
of the line graph (each line-graph edge is a pair of original edges, each in
networkx's sorted orientation).  Returns the weight dict (keyed by the
line-graph edge) together with the total number of zero-denominator
diagnostics printed. -/
def build_weighted_line_graph (log : ℚ → ℚ) (G : Graph) (L : List (Edge × Edge)) :
    List ((Edge × Edge) × ℚ) × ℕ :=
  let deg := degree G
  let ewd := modify_edge_weights log (1 / 100000) G
  let nwd := node_weight G ewd
  (L.map (fun le => (le, (lineEdgeData deg ewd nwd le.1 le.2).1)),
   (L.map (fun le => (lineEdgeData deg ewd nwd le.1 le.2).2)).sum)

/-- The forward edge map of `map_edge_to_unique_index` (lines 306-326),
generalized over the starting index of the counter. -/
def buildEdgeMap : List Edge → ℕ → List (Edge × ℕ)
  | [], _ => []
  | e :: rest, i => (e, i) :: buildEdgeMap rest (i + 1)

/-- The reverse edge map of `map_edge_to_unique_index`. -/
def buildRevMap : List Edge → ℕ → List (ℕ × Edge)
  | [], _ => []
  | e :: rest, i => (i, e) :: buildRevMap rest (i + 1)

/-- Embeds `map_edge_to_unique_index` (lines 306-326): both dicts, built by
iterating the edge list with a counter starting at 0.  (The pickling of the
two dicts to disk is I/O outside the data semantics.) -/
def map_edge_to_unique_index (G : Graph) : List (Edge × ℕ) × List (ℕ × Edge) :=
  (buildEdgeMap G.edges 0, buildRevMap G.edges 0)

/-- Embeds `measure_penalty_error` from `error.py`.  `edgeOf` models the
reverse edge map (index to edge, total on the indices used); `sqrt` models
`np.linalg.norm`'s square root.  Faithful to the source: the test compares
the norm (not its square) with the radius, and each violating endpoint adds
`norm ** 2 - r ** 2`. -/
def measure_penalty_error (sqrt : ℚ → ℚ) (embeddings : List (List ℚ))
    (centers : List (List ℚ)) (radii : List ℚ) (edgeOf : ℕ → Edge)
    (nodes : List ℤ) : ℚ :=
  (List.range embeddings.length).foldl (fun error i =>
    let e := edgeOf i
    let nuInd := whereIdx nodes e.1
    let nvInd := whereIdx nodes e.2
    let Xuv := embeddings.getD i []
    let cu := centers.getD nuInd []
    let cv := centers.getD nvInd []
    let ru := radii.getD nuInd 0
    let rv := radii.getD nvInd 0
    let error1 := if ru < sqrt (dist2 Xuv cu) then error + (sqrt (dist2 Xuv cu)) ^ 2 - ru ^ 2 else error
    if rv < sqrt (dist2 Xuv cv) then error1 + (sqrt (dist2 Xuv cv)) ^ 2 - rv ^ 2 else error1) 0

/-- The list of squared distances inspected by `measure_penalty_error`, in
order: for each edge index, the distance to each endpoint's center.  Used to
state the hypotheses on the abstract `sqrt` at exactly the inspected values. -/
def edgeDists2 (embeddings centers : List (List ℚ)) (edgeOf : ℕ → Edge)
    (nodes : List ℤ) : List ℚ :=
  (List.range embeddings.length).flatMap (fun i =>
    let e := edgeOf i
    [dist2 (embeddings.getD i []) (centers.getD (whereIdx nodes e.1) []),
     dist2 (embeddings.getD i []) (centers.getD (whereIdx nodes e.2) [])])

/-- The error formula exactly as the specification states it:
`Σ_{edges (u,v)} max(0, dist2(X,c_u) - r_u^2) + max(0, dist2(X,c_v) - r_v^2)`,
where `dist2` is the squared Euclidean norm. -/
def spec_penalty_error (embeddings : List (List ℚ)) (centers : List (List ℚ))
    (radii : List ℚ) (edgeOf : ℕ → Edge) (nodes : List ℤ) : ℚ :=
  ((List.range embeddings.length).map (fun i =>
    let e := edgeOf i
    let Xuv := embeddings.getD i []
    let cu := centers.getD (whereIdx nodes e.1) []
    let cv := centers.getD (whereIdx nodes e.2) []
    let ru := radii.getD (whereIdx nodes e.1) 0
    let rv := radii.getD (whereIdx nodes e.2) 0
    max 0 (dist2 Xuv cu - ru ^ 2) + max 0 (dist2 Xuv cv - rv ^ 2))).sum

/-- The edge-index lookup inside `initialize_params` (lines 133-138): try
key `(n, neighbor)`, else use `(neighbor, n)`. -/
def edgeIndexOf (edgeMap : List (Edge × ℕ)) (a b : ℤ) : ℕ :=
  match findVal edgeMap (a, b) with
  | some i => i
  | none => (findVal edgeMap (b, a)).getD 0

/-- The center loop body of `initialize_params` (lines 129-141): sum the
embedding rows of the edges to all neighbors, then divide by the number of
neighbors. -/
def initCenter (embeddings : List (List ℚ)) (edgeMap : List (Edge × ℕ)) (D : ℕ)
    (n : ℤ) (neigh : List ℤ) : List ℚ :=
  ((neigh.map (fun u => embeddings.getD (edgeIndexOf edgeMap n u) (zeroVec D))).foldl
      addVec (zeroVec D)).map (fun x => x / (neigh.length : ℚ))

/-- The radius loop body of `initialize_params` (lines 149-157):
`np.max` over the distances from this node's center to each neighbor's
center.  `np.max` of an empty array raises `ValueError`, modelled by `none`
(`List.max?` of `[]`). -/
def initRadius (sqrt : ℚ → ℚ) (centers : List (List ℚ)) (nodes : List ℤ)
    (i : ℕ) (neigh : List ℤ) : Option ℚ :=
  (neigh.map (fun u =>
    sqrt (dist2 (centers.getD i []) (centers.getD (whereIdx nodes u) [])))).max?

/-- Collect a list of optional radii; `none` anywhere models the exception
aborting the whole radius loop. -/
def collectSome : List (Option ℚ) → Option (List ℚ)
  | [] => some []
  | none :: _ => none
  | some x :: rest =>
    match collectSome rest with
    | some xs => some (x :: xs)
    | none => none

/-- The centers matrix filled by the first loop of `initialize_params`
(lines 128-141), row `i` holding the center of `nodes[i]`. -/
def initCenters (embeddings : List (List ℚ)) (nodes : List ℤ) (neighbors : ℤ → List ℤ)
    (edgeMap : List (Edge × ℕ)) (D : ℕ) : List (List ℚ) :=
  (List.range nodes.length).map
    (fun i => initCenter embeddings edgeMap D (nodes.getD i 0) (neighbors (nodes.getD i 0)))

/-- Embeds `initialize_params` (main.py lines 126-159; named `init_params`
here because of naming restrictions).  Returns `none` when the radius pass
raises (a node with an empty neighbor list). -/
def init_params (sqrt : ℚ → ℚ) (embeddings : List (List ℚ)) (nodes : List ℤ)
    (neighbors : ℤ → List ℤ) (edgeMap : List (Edge × ℕ)) (D : ℕ) :
    Option (List (List ℚ) × List ℚ) :=
  let centers := initCenters embeddings nodes neighbors edgeMap D
  match collectSome ((List.range nodes.length).map
      (fun i => initRadius sqrt centers nodes i (neighbors (nodes.getD i 0)))) with
  | some radii => some (centers, radii)
  | none => none

/-- The default `beta` of `update_optimization_params` (line 162). -/
def update_opt_default_beta : ℚ := 1 / 100

/-- The default `eta` of `update_optimization_params` (line 162). -/
def update_opt_default_eta : ℚ := 1 / 1000

/-- The `(beta, eta)` pairs passed to `update_optimization_params` by the
loop of `learn_embeddings` (lines 190-200), threading the mutable `beta`
(which is doubled after each call) and the constant `eta`. -/
def learn_loop_calls : ℕ → ℚ → ℚ → List (ℚ × ℚ)
  | 0, _, _ => []
  | n + 1, beta, eta => (beta, eta) :: learn_loop_calls n (beta * 2) eta

/-- All `(beta, eta)` pairs passed to `update_optimization_params` during
`learn_embeddings` (lines 184-205) for a given `--l2v-iter` count: the loop
calls starting from the hardcoded `beta = 0.01`, `eta = 0.001` (lines
185-186), followed by the final projection call (line 204), which passes no
hyperparameters and therefore uses the defaults of
`update_optimization_params`. -/
def learn_opt_calls (l2vIter : ℕ) : List (ℚ × ℚ) :=
  learn_loop_calls l2vIter (1 / 100) (1 / 1000) ++
    [(update_opt_default_beta, update_opt_default_eta)]

/-- Edges of `G` incident to `n` — the specification's notion for the sphere
initializer ("all edges incident to n"). -/
def incidentAux (l : List Edge) (n : ℤ) : List Edge :=
  l.filter (fun e => decide (e.1 = n ∨ e.2 = n))

/-- Edges of `G` incident to `n`. -/
def incidentEdges (G : Graph) (n : ℤ) : List Edge := incidentAux G.edges n

/-- The endpoint of `e` other than `n` (for `e` incident to `n`). -/
def otherEnd (n : ℤ) (e : Edge) : ℤ := if e.1 = n then e.2 else e.1

/-- Center of node `n` as the specification words it: the arithmetic mean of
the embedding vectors of all edges incident to `n`, each edge looked up in
the edge-index map. -/
def specCenter (embeddings : List (List ℚ)) (edgeMap : List (Edge × ℕ)) (D : ℕ)
    (G : Graph) (n : ℤ) : List ℚ :=
  (((incidentEdges G n).map
      (fun e => embeddings.getD ((findVal edgeMap e).getD 0) (zeroVec D))).foldl
        addVec (zeroVec D)).map (fun x => x / ((incidentEdges G n).length : ℚ))

/-- Radius of node `n` as the specification words it: the maximum Euclidean
distance between `n`'s center and the centers of `n`'s neighboring nodes. -/
def specRadius (sqrt : ℚ → ℚ) (embeddings : List (List ℚ))
    (edgeMap : List (Edge × ℕ)) (D : ℕ) (G : Graph) (n : ℤ) : ℚ :=
  (((neighborsOf G n).map (fun u =>
      sqrt (dist2 (specCenter embeddings edgeMap D G n)
        (specCenter embeddings edgeMap D G u)))).max?).getD 0

/-- A well-formed materialized undirected graph: distinct nodes, no
self-loops, endpoints drawn from the node list, and no unordered edge pair
stored twice (in particular not in both orientations). -/
def WellFormed (G : Graph) : Prop :=
  G.nodes.Nodup ∧
  (∀ e ∈ G.edges, e.1 ≠ e.2) ∧
  (∀ e ∈ G.edges, e.1 ∈ G.nodes ∧ e.2 ∈ G.nodes) ∧
  G.edges.Pairwise (fun e f => sortPair e ≠ sortPair f)

/-- Two edges share an endpoint. -/
def sharesEndpoint (p q : Edge) : Prop :=
  p.1 = q.1 ∨ p.1 = q.2 ∨ p.2 = q.1 ∨ p.2 = q.2

/-- `(p, q)` is an edge of the line graph of `G` as produced by
`networkx.line_graph`: both are (sorted representatives of) edges of `G`,
they are distinct, and they share an endpoint. -/
def IsLineEdge (G : Graph) (p q : Edge) : Prop :=
  (∃ e ∈ G.edges, sortPair e = p) ∧ (∃ f ∈ G.edges, sortPair f = q) ∧
    p ≠ q ∧ sharesEndpoint p q

instance (G : Graph) : Decidable (WellFormed G) := by
  unfold WellFormed; infer_instance

instance (p q : Edge) : Decidable (sharesEndpoint p q) := by
  unfold sharesEndpoint; infer_instance

instance (G : Graph) (p q : Edge) : Decidable (IsLineEdge G p q) := by
  unfold IsLineEdge; infer_instance

/-- A concrete square root valid at the only inspected squared distance 9
(used to instantiate the penalty-oracle theorem). -/
def sqrtW : ℚ → ℚ := fun x => if x = 9 then 3 else 0

/-- Concrete degree dict used to exercise the zero-denominator branch. -/
def degC5 : ℤ → ℕ := fun _ => 1

/-- Concrete modified-edge-weight dict used to exercise the zero-denominator
branch: the common vertex's accumulated weight equals edge 1's own weight. -/
def ewdC5 : List (Edge × ℚ) := [((0, 1), 5)]

/-- Concrete node-weight dict for the zero-denominator branch. -/
def nwdC5 : ℤ → ℚ := fun _ => 5

/-- The 3-node path graph 0-1-2 (used as a concrete input). -/
def P3 : Graph := ⟨[0, 1, 2], [(0, 1), (1, 2)]⟩

/-! ## Generic helper lemmas -/

theorem findVal_mem {κ ν : Type} [DecidableEq κ] {d : List (κ × ν)} {k : κ} {v : ν}
    (h : findVal d k = some v) : (k, v) ∈ d := by
  induction d with
  | nil => simp [findVal] at h
  | cons kv rest ih =>
    rw [findVal] at h
    split_ifs at h with hk
    · obtain ⟨a, b⟩ := kv
      obtain rfl : b = v := by simpa using h
      simp_all
    · exact List.mem_cons_of_mem _ (ih h)

theorem findVal_eq_none {κ ν : Type} [DecidableEq κ] {d : List (κ × ν)} {k : κ}
    (h : ∀ kv ∈ d, kv.1 ≠ k) : findVal d k = none := by
  induction d with
  | nil => rfl
  | cons kv rest ih =>
    rw [findVal, if_neg (h kv (List.mem_cons_self _ _))]
    exact ih fun x hx => h x (List.mem_cons_of_mem _ hx)

theorem getD_mem {α : Type} {l : List α} {i : ℕ} (d : α) (h : i < l.length) :
    l.getD i d ∈ l := by
  induction l generalizing i with
  | nil => simp at h
  | cons x xs ih =>
    cases i with
    | zero => simp
    | succ j =>
      rw [List.getD_cons_succ]
      exact List.mem_cons_of_mem _ (ih (by simpa using h))

theorem map_range_getD {α : Type} (f : ℕ → α) (d : α) :
    ∀ (n i : ℕ), i < n → ((List.range n).map f).getD i d = f i := by
  intro n
  induction n with
  | zero => intro i hi; omega
  | succ m ih =>
    intro i hi
    rw [List.range_succ, List.map_append]
    rcases Nat.lt_or_ge i m with hlt | hge
    · rw [List.getD_append _ _ _ _ (by simpa using hlt)]
      exact ih i hlt
    · obtain rfl : i = m := by omega
      rw [List.getD_append_right _ _ _ _ (by simp)]
      simp

theorem sortPair_swap (a b : ℤ) : sortPair (b, a) = sortPair (a, b) := by
  unfold sortPair
  split_ifs <;> simp_all [Prod.mk.injEq] <;> omega

theorem sortPair_le (e : Edge) : (sortPair e).1 ≤ (sortPair e).2 := by
  obtain ⟨a, b⟩ := e
  unfold sortPair
  split_ifs <;> simp <;> omega

theorem sortPair_lt {e : Edge} (h : e.1 ≠ e.2) : (sortPair e).1 < (sortPair e).2 := by
  obtain ⟨a, b⟩ := e
  unfold sortPair
  split_ifs <;> simp_all <;> omega

theorem sortPair_eq_or {e f : Edge} (h : sortPair e = sortPair f) :
    e = f ∨ e = (f.2, f.1) := by
  obtain ⟨a, b⟩ := e
  obtain ⟨c, d⟩ := f
  unfold sortPair at h
  split_ifs at h <;> simp_all [Prod.mk.injEq] <;> omega

theorem sortPair_of_sorted {e : Edge} (h : e.1 ≤ e.2) : sortPair e = e := by
  unfold sortPair
  exact if_pos h

/-! ## Lemmas about `modify_edge_weights` -/

theorem edgeWeight_congr (log : ℚ → ℚ) (eps : ℚ) (G : Graph) {e f : Edge}
    (h : sortPair e = sortPair f) : edgeWeight log eps G e = edgeWeight log eps G f := by
  rcases sortPair_eq_or h with rfl | he
  · rfl
  · subst he
    unfold edgeWeight
    rw [mul_comm ((degree G (f.2, f.1).1 : ℚ))]

theorem mew_lookup_aux (log : ℚ → ℚ) (eps : ℚ) (G : Graph) {e : Edge} :
    ∀ {l : List Edge}, e ∈ l →
      findVal (l.map (fun f => (sortPair f, edgeWeight log eps G f))) (sortPair e) =
        some (edgeWeight log eps G e) := by
  intro l
  induction l with
  | nil => intro h; simp at h
  | cons f rest ih =>
    intro h
    rw [List.map_cons, findVal]
    split_ifs with hf
    · rw [edgeWeight_congr log eps G hf.symm]
    · rcases List.mem_cons.mp h with rfl | hmem
      · simp at hf
      · exact ih hmem

theorem mew_lookup (log : ℚ → ℚ) (eps : ℚ) (G : Graph) {e : Edge} (he : e ∈ G.edges) :
    findVal (modify_edge_weights log eps G) (sortPair e) = some (edgeWeight log eps G e) :=
  mew_lookup_aux log eps G he

theorem eps_le_edgeWeight (log : ℚ → ℚ) (eps : ℚ) (G : Graph) (e : Edge) :
    eps ≤ edgeWeight log eps G e := le_max_right _ _

theorem mew_val_ge (log : ℚ → ℚ) (eps : ℚ) (G : Graph) :
    ∀ kv ∈ modify_edge_weights log eps G, eps ≤ kv.2 := by
  intro kv hkv
  obtain ⟨e, he, rfl⟩ := List.mem_map.mp hkv
  exact le_max_right _ _

theorem mew_key_sorted (log : ℚ → ℚ) (eps : ℚ) (G : Graph) :
    ∀ kv ∈ modify_edge_weights log eps G, kv.1.1 ≤ kv.1.2 := by
  intro kv hkv
  obtain ⟨e, he, rfl⟩ := List.mem_map.mp hkv
  exact sortPair_le e

theorem mew_key_lt (log : ℚ → ℚ) (eps : ℚ) {G : Graph}
    (hloop : ∀ e ∈ G.edges, e.1 ≠ e.2) :
    ∀ kv ∈ modify_edge_weights log eps G, kv.1.1 < kv.1.2 := by
  intro kv hkv
  obtain ⟨e, he, rfl⟩ := List.mem_map.mp hkv
  exact sortPair_lt (hloop e he)

/-! ## Lemmas about the hyperparameter schedule of `learn_embeddings` -/

theorem learn_loop_calls_length (n : ℕ) (b e : ℚ) : (learn_loop_calls n b e).length = n := by
  induction n generalizing b with
  | zero => rfl
  | succ m ih => simp [learn_loop_calls, ih]

theorem learn_loop_calls_getD :
    ∀ (n i : ℕ) (b e : ℚ), i < n →
      (learn_loop_calls n b e).getD i (0, 0) = (b * 2 ^ i, e) := by
  intro n
  induction n with
  | zero => intro i b e hi; omega
  | succ m ih =>
    intro i b e hi
    cases i with
    | zero => simp [learn_loop_calls]
    | succ j =>
      rw [learn_loop_calls, List.getD_cons_succ, ih j (b * 2) e (by omega)]
      simp only [Prod.mk.injEq, and_true]
      rw [pow_succ]
      ring

/-- Claim C9 (amended): in the loop of `learn_embeddings`, the penalty weight
`beta` passed to the `i`-th call of `update_optimization_params` is the
hardcoded initial value `0.01` doubled `i` times, and the step size `eta` is
held constant at the hardcoded `0.001`.  The schedule is fixed inside
`learn_embeddings`; no caller input other than the iteration count reaches
it. -/
theorem c9_beta_doubles_eta_constant (I i : ℕ) (h : i < I) :
    (learn_opt_calls I).getD i (0, 0) = ((1 / 100) * 2 ^ i, 1 / 1000) := by
  unfold learn_opt_calls
  rw [List.getD_append _ _ _ _ (by rw [learn_loop_calls_length]; exact h)]
  exact learn_loop_calls_getD I i _ _ h

/-- Claim C9, counterexample to "caller-controlled (not hardcoded)": the
entire call schedule of `learn_embeddings` is a function of the iteration
count alone (the source exposes no `beta`/`eta` parameter), and at the
concrete caller input `l2v_iter = 3` it is exactly the hardcoded sequence
0.01, 0.02, 0.04 followed by the final default call. -/
theorem c9_schedule_fixed_at_three :
    learn_opt_calls 3 =
      [(1 / 100, 1 / 1000), (1 / 50, 1 / 1000), (1 / 25, 1 / 1000), (1 / 100, 1 / 1000)] := by
  norm_num [learn_opt_calls, learn_loop_calls, update_opt_default_beta, update_opt_default_eta]

theorem c9_beta_doubles_eta_constant_witness :
    2 < 3 ∧ (learn_opt_calls 3).getD 2 (0, 0) = ((1 / 100) * 2 ^ 2, 1 / 1000) :=
  ⟨by norm_num, c9_beta_doubles_eta_constant 3 2 (by norm_num)⟩

/-- Claim C10: for every iteration count, the final projection after the
loop of `learn_embeddings` calls `update_optimization_params` with the
function's default hyperparameters `beta = 0.01`, `eta = 0.001`, and (for
any positive iteration count) this is not the `beta` value the doubling
schedule has reached. -/
theorem c10_final_call_uses_defaults (I : ℕ) :
    (learn_opt_calls I).getLast? = some (update_opt_default_beta, update_opt_default_eta) ∧
    update_opt_default_beta = 1 / 100 ∧ update_opt_default_eta = 1 / 1000 ∧
    (1 ≤ I → (1 / 100 : ℚ) * 2 ^ I ≠ update_opt_default_beta) := by
  refine ⟨?_, rfl, rfl, ?_⟩
  · unfold learn_opt_calls
    exact List.getLast?_concat _
  · intro hI hc
    have h2 : (2 : ℚ) ^ 1 ≤ 2 ^ I := pow_le_pow_right₀ (by norm_num) hI
    rw [pow_one] at h2
    rw [update_opt_default_beta] at hc
    linarith

theorem c10_final_call_uses_defaults_witness :
    (learn_opt_calls 2).getLast? = some (update_opt_default_beta, update_opt_default_eta) ∧
    (1 / 100 : ℚ) * 2 ^ 2 ≠ update_opt_default_beta :=
  ⟨(c10_final_call_uses_defaults 2).1, (c10_final_call_uses_defaults 2).2.2.2 (by norm_num)⟩

/-- Claim C5: during line-graph weighting, whenever the denominator
`node_weight[common] - modified_weight(source edge)` is exactly 0, the
weight-contribution factor for that direction is defined as 0 with a
diagnostic emitted, the final weight degenerates to the other direction's
half, and no division is performed on that branch (the computation is total:
`weightContriDest` divides only in its nonzero branch). -/
theorem c5_zero_denominator_recovery (deg : ℤ → ℕ) (ewd : List (Edge × ℚ)) (nwd : ℤ → ℚ)
    (e1 e2 : Edge) (common start stop : ℤ)
    (hres : resolveVertices e1 e2 = (common, start, stop))
    (h0 : nwd common - (findVal ewd e1).getD 0 = 0) :
    weightContriDest ((findVal ewd e2).getD 0) (nwd common - (findVal ewd e1).getD 0) = (0, 1) ∧
    (lineEdgeData deg ewd nwd e1 e2).1 =
      weightContriSrcEdge2 (deg stop) (deg common) *
        (weightContriDest ((findVal ewd e1).getD 0) (nwd common - (findVal ewd e2).getD 0)).1 / 2 ∧
    1 ≤ (lineEdgeData deg ewd nwd e1 e2).2 := by
  have hd : weightContriDest ((findVal ewd e2).getD 0) (nwd common - (findVal ewd e1).getD 0)
      = (0, 1) := by
    unfold weightContriDest
    rw [if_pos h0]
  refine ⟨hd, ?_, ?_⟩
  · simp only [lineEdgeData, hres, hd]
    ring
  · simp only [lineEdgeData, hres, hd]
    exact Nat.le_add_right 1 _

theorem c5_zero_denominator_recovery_witness :
    weightContriDest ((findVal ewdC5 (1, 2)).getD 0)
        (nwdC5 1 - (findVal ewdC5 (0, 1)).getD 0) = (0, 1) ∧
    (lineEdgeData degC5 ewdC5 nwdC5 (0, 1) (1, 2)).1 =
      weightContriSrcEdge2 (degC5 2) (degC5 1) *
        (weightContriDest ((findVal ewdC5 (0, 1)).getD 0)
          (nwdC5 1 - (findVal ewdC5 (1, 2)).getD 0)).1 / 2 ∧
    1 ≤ (lineEdgeData degC5 ewdC5 nwdC5 (0, 1) (1, 2)).2 :=
  c5_zero_denominator_recovery degC5 ewdC5 nwdC5 (0, 1) (1, 2) 1 0 2 (by decide)
    (by norm_num [ewdC5, nwdC5, findVal])

/-- Claim C1 (code-bug evidence): on the path graph 0-1-2 with line-graph
edge ((0,1),(1,2)), the far endpoint of edge 2 (node 2) has degree 1, so per
the claim both directional degree-contribution factors should be 1.
Direction 1's factor is 1 as claimed, but direction 2's factor is 1/3, not
1, because the source guards on the degree of the common vertex
(`degree_end_vertex_edge_2`) instead of the far endpoint's degree; the full
pipeline therefore assigns weight (1 + 1/3)/2 = 2/3 instead of 1. -/
theorem c1_second_direction_guards_common_vertex :
    degree P3 2 = 1 ∧
    degree P3 1 = 2 ∧
    resolveVertices (0, 1) (1, 2) = (1, 0, 2) ∧
    weightContriSrcEdge1 (degree P3 2) (degree P3 1) = 1 ∧
    weightContriSrcEdge2 (degree P3 2) (degree P3 1) = 1 / 3 ∧
    weightContriSrcEdge2 (degree P3 2) (degree P3 1) ≠ 1 ∧
    (build_weighted_line_graph (fun _ => 0) P3 [((0, 1), (1, 2))]).1 =
      [(((0, 1), (1, 2)), 2 / 3)] := by
  have h2 : degree P3 2 = 1 := by decide
  have h1 : degree P3 1 = 2 := by decide
  refine ⟨h2, h1, by decide, ?_, ?_, ?_, ?_⟩
  · rw [h2, h1]
    norm_num [weightContriSrcEdge1]
  · rw [h2, h1]
    norm_num [weightContriSrcEdge2]
  · rw [h2, h1]
    norm_num [weightContriSrcEdge2]
  · norm_num [build_weighted_line_graph, lineEdgeData, modify_edge_weights, edgeWeight,
      node_weight, neighborsOf, neighborsAux, lookupEither, findVal, resolveVertices, setOf2,
      interL, diffL, weightContriSrcEdge1, weightContriSrcEdge2, weightContriDest, degree,
      totalDegree, P3, sortPair, List.filterMap_cons, List.filterMap_nil, List.map_cons,
      List.map_nil, List.sum_cons, List.sum_nil]

/-- Claim C6 (code-bug evidence): `initialize_params` contains no explicit
check for a neighbor-less node and the code base defines no
`DegenerateGraphError`.  On a concrete graph whose node 2 has no neighbors,
initialization itself fails — node 2's center is computed by a division by
zero and the radius pass then aborts on `np.max` of an empty distance list
(modelled by `none`) — rather than the node being rejected up front. -/
theorem c6_isolated_node_not_rejected :
    neighborsOf ⟨[0, 1, 2], [(0, 1)]⟩ 2 = [] ∧
    init_params (fun _ => 0) [[0]] [0, 1, 2]
      (fun v => neighborsOf ⟨[0, 1, 2], [(0, 1)]⟩ v) (buildEdgeMap [(0, 1)] 0) 1 = none := by
  exact ⟨by decide, by decide⟩

/-- Claim C4: for every input graph and every edge `(u, v)` of it, the
modified weight stored under the canonical (sorted) key is exactly
`max(log(total_degree / (deg u * deg v)) + eps, eps)` at the default
`eps = 1e-5`; consequently every modified edge weight is at least
`eps > 0`; and every key of the returned mapping is a sorted pair, so no
edge can appear under two orientations. -/
theorem c4_modified_edge_weight_formula (log : ℚ → ℚ) (G : Graph) (e : Edge)
    (he : e ∈ G.edges) :
    findVal (modify_edge_weights log (1 / 100000) G) (sortPair e) =
      some (max (log ((totalDegree G : ℚ) / ((degree G e.1 : ℚ) * (degree G e.2 : ℚ)))
        + 1 / 100000) (1 / 100000)) ∧
    (1 / 100000 : ℚ) ≤
      max (log ((totalDegree G : ℚ) / ((degree G e.1 : ℚ) * (degree G e.2 : ℚ)))
        + 1 / 100000) (1 / 100000) ∧
    (0 : ℚ) < 1 / 100000 ∧
    (∀ kv ∈ modify_edge_weights log (1 / 100000) G, kv.1.1 ≤ kv.1.2) :=
  ⟨mew_lookup log _ G he, le_max_right _ _, by norm_num, mew_key_sorted log _ G⟩

theorem c4_modified_edge_weight_formula_witness :
    ((1, 2) : Edge) ∈ P3.edges ∧
    findVal (modify_edge_weights id (1 / 100000) P3) (sortPair (1, 2)) =
      some (max (id ((totalDegree P3 : ℚ) / ((degree P3 1 : ℚ) * (degree P3 2 : ℚ)))
        + 1 / 100000) (1 / 100000)) ∧
    (0 : ℚ) < 1 / 100000 :=
  ⟨by decide, (c4_modified_edge_weight_formula id P3 (1, 2) (by decide)).1,
    (c4_modified_edge_weight_formula id P3 (1, 2) (by decide)).2.2.1⟩

/-! ## Lemmas about `map_edge_to_unique_index` -/

theorem bem_isSome {l : List Edge} {e : Edge} :
    ∀ s : ℕ, (findVal (buildEdgeMap l s) e).isSome ↔ e ∈ l := by
  induction l with
  | nil => intro s; simp [buildEdgeMap, findVal]
  | cons f rest ih =>
    intro s
    simp only [buildEdgeMap, findVal, List.mem_cons]
    by_cases hf : f = e
    · subst hf; simp
    · rw [if_neg hf, ih (s + 1)]
      constructor
      · exact Or.inr
      · rintro (rfl | h)
        · exact absurd rfl hf
        · exact h

theorem bem_some {l : List Edge} {e : Edge} :
    ∀ {s i : ℕ}, findVal (buildEdgeMap l s) e = some i →
      ∃ j, j < l.length ∧ i = s + j ∧ l.getD j (0, 0) = e := by
  induction l with
  | nil => intro s i h; simp [buildEdgeMap, findVal] at h
  | cons f rest ih =>
    intro s i h
    simp only [buildEdgeMap, findVal] at h
    split_ifs at h with hf
    · obtain rfl : s = i := by simpa using h
      exact ⟨0, by simp, by simp, by simpa using hf⟩
    · obtain ⟨j, hj, rfl, hget⟩ := ih h
      exact ⟨j + 1, by simpa using hj, by omega, by simpa using hget⟩

theorem brm_lookup {l : List Edge} :
    ∀ (s j : ℕ), j < l.length → findVal (buildRevMap l s) (s + j) = some (l.getD j (0, 0)) := by
  induction l with
  | nil => intro s j hj; simp at hj
  | cons f rest ih =>
    intro s j hj
    cases j with
    | zero => simp [buildRevMap, findVal]
    | succ k =>
      simp only [buildRevMap, findVal]
      rw [if_neg (by omega)]
      have := ih (s + 1) k (by simpa using hj)
      rw [show s + (k + 1) = s + 1 + k by omega]
      simpa using this

theorem bem_nodup_getD {l : List Edge} (hl : l.Nodup) :
    ∀ (s j : ℕ), j < l.length → findVal (buildEdgeMap l s) (l.getD j (0, 0)) = some (s + j) := by
  induction l with
  | nil => intro s j hj; simp at hj
  | cons f rest ih =>
    intro s j hj
    cases j with
    | zero => simp [buildEdgeMap, findVal]
    | succ k =>
      have hk : k < rest.length := by simpa using hj
      simp only [buildEdgeMap, findVal, List.getD_cons_succ]
      rw [if_neg ?hne]
      case hne =>
        intro hf
        exact (List.nodup_cons.mp hl).1 (hf ▸ getD_mem (0, 0) hk)
      have := ih (List.nodup_cons.mp hl).2 (s + 1) k hk
      rw [show s + (k + 1) = s + 1 + k by omega]
      exact this

/-- Claim C7: for every graph with distinct stored edges (networkx
guarantees this), the maps built by `map_edge_to_unique_index` form a
bijection: the forward map is defined exactly on the edge set; whenever the
forward map sends `e` to `i`, then `i < E` and the reverse map sends `i`
back to `e`; and every index in `[0, E)` is hit, with `E` the edge count. -/
theorem c7_edge_index_bijection (G : Graph) (hnd : G.edges.Nodup) :
    (∀ e : Edge, (findVal (map_edge_to_unique_index G).1 e).isSome ↔ e ∈ G.edges) ∧
    (∀ (e : Edge) (i : ℕ), findVal (map_edge_to_unique_index G).1 e = some i →
      i < G.edges.length ∧ findVal (map_edge_to_unique_index G).2 i = some e) ∧
    (∀ i : ℕ, i < G.edges.length →
      ∃ e ∈ G.edges, findVal (map_edge_to_unique_index G).1 e = some i ∧
        findVal (map_edge_to_unique_index G).2 i = some e) := by
  refine ⟨fun e => bem_isSome 0, ?_, ?_⟩
  · intro e i h
    obtain ⟨j, hj, rfl, hget⟩ := bem_some h
    have hrev := brm_lookup 0 j hj
    rw [hget] at hrev
    exact ⟨by omega, hrev⟩
  · intro i hi
    refine ⟨G.edges.getD i (0, 0), getD_mem _ hi, ?_, ?_⟩
    · simpa using bem_nodup_getD hnd 0 i hi
    · simpa using brm_lookup 0 i hi

theorem c7_edge_index_bijection_witness :
    P3.edges.Nodup ∧
    ((findVal (map_edge_to_unique_index P3).1 ((1 : ℤ), (2 : ℤ))).isSome ↔
      ((1 : ℤ), (2 : ℤ)) ∈ P3.edges) ∧
    (1 < P3.edges.length ∧ findVal (map_edge_to_unique_index P3).2 1 = some (1, 2)) :=
  ⟨by decide, (c7_edge_index_bijection P3 (by decide)).1 (1, 2),
    (c7_edge_index_bijection P3 (by decide)).2.1 (1, 2) 1 (by decide)⟩

/-! ## Lemmas for the penalty error oracle -/

theorem getD_nonneg {radii : List ℚ} (hr : ∀ r ∈ radii, 0 ≤ r) (i : ℕ) :
    0 ≤ radii.getD i 0 := by
  rcases Nat.lt_or_ge i radii.length with h | h
  · exact hr _ (getD_mem 0 h)
  · rw [List.getD_eq_default _ _ h]

theorem penalty_term_eq {sqrt : ℚ → ℚ} {d r : ℚ} (hr0 : 0 ≤ r) (h1 : 0 ≤ sqrt d)
    (h2 : sqrt d ^ 2 = d) :
    (if r < sqrt d then sqrt d ^ 2 - r ^ 2 else 0) = max 0 (d - r ^ 2) := by
  by_cases hlt : r < sqrt d
  · rw [if_pos hlt, h2]
    have hsq : r ^ 2 < d := by
      rw [← h2]
      exact pow_lt_pow_left₀ hlt hr0 (by norm_num)
    rw [max_eq_right (by linarith)]
  · rw [if_neg hlt]
    push_neg at hlt
    have hsq : d ≤ r ^ 2 := by
      rw [← h2]
      exact pow_le_pow_left₀ h1 hlt 2
    rw [max_eq_left (by linarith)]

theorem mpe_foldl_gen (sqrt : ℚ → ℚ) (embeddings centers : List (List ℚ))
    (radii : List ℚ) (edgeOf : ℕ → Edge) (nodes : List ℤ) :
    ∀ (l : List ℕ) (a : ℚ),
      l.foldl (fun error i =>
        let e := edgeOf i
        let nuInd := whereIdx nodes e.1
        let nvInd := whereIdx nodes e.2
        let Xuv := embeddings.getD i []
        let cu := centers.getD nuInd []
        let cv := centers.getD nvInd []
        let ru := radii.getD nuInd 0
        let rv := radii.getD nvInd 0
        let error1 := if ru < sqrt (dist2 Xuv cu) then error + (sqrt (dist2 Xuv cu)) ^ 2 - ru ^ 2 else error
        if rv < sqrt (dist2 Xuv cv) then error1 + (sqrt (dist2 Xuv cv)) ^ 2 - rv ^ 2 else error1) a
      = a + (l.map (fun i =>
          (if radii.getD (whereIdx nodes (edgeOf i).1) 0 <
              sqrt (dist2 (embeddings.getD i []) (centers.getD (whereIdx nodes (edgeOf i).1) [])) then
            sqrt (dist2 (embeddings.getD i []) (centers.getD (whereIdx nodes (edgeOf i).1) [])) ^ 2 -
              radii.getD (whereIdx nodes (edgeOf i).1) 0 ^ 2 else 0) +
          (if radii.getD (whereIdx nodes (edgeOf i).2) 0 <
              sqrt (dist2 (embeddings.getD i []) (centers.getD (whereIdx nodes (edgeOf i).2) [])) then
            sqrt (dist2 (embeddings.getD i []) (centers.getD (whereIdx nodes (edgeOf i).2) [])) ^ 2 -
              radii.getD (whereIdx nodes (edgeOf i).2) 0 ^ 2 else 0))).sum := by
  intro l
  induction l with
  | nil => intro a; simp
  | cons i rest ih =>
    intro a
    rw [List.foldl_cons, ih, List.map_cons, List.sum_cons]
    dsimp only
    by_cases h1 : radii.getD (whereIdx nodes (edgeOf i).1) 0 <
        sqrt (dist2 (embeddings.getD i []) (centers.getD (whereIdx nodes (edgeOf i).1) [])) <;>
      by_cases h2 : radii.getD (whereIdx nodes (edgeOf i).2) 0 <
        sqrt (dist2 (embeddings.getD i []) (centers.getD (whereIdx nodes (edgeOf i).2) [])) <;>
      simp only [if_pos, if_neg, h1, h2, if_true, if_false] <;> ring

/-- Claim C2: for every embedding matrix, sphere set (with the data-model
invariant that radii are non-negative), edge-index map and node array, and
for any `sqrt` behaving as a square root on the inspected squared distances,
`measure_penalty_error` returns exactly
`Σ_{edges (u,v)} max(0, dist2(X_uv,c_u) - r_u^2) + max(0, dist2(X_uv,c_v) - r_v^2)`:
a term contributes only when the distance strictly exceeds the radius.  The
embedding is a pure function of its arguments (the Python source only reads
them), so the no-side-effect part holds by construction. -/
theorem c2_penalty_error_is_spec_sum (sqrt : ℚ → ℚ) (embeddings centers : List (List ℚ))
    (radii : List ℚ) (edgeOf : ℕ → Edge) (nodes : List ℤ)
    (hr : ∀ r ∈ radii, 0 ≤ r)
    (hs : ∀ d ∈ edgeDists2 embeddings centers edgeOf nodes, 0 ≤ sqrt d ∧ sqrt d ^ 2 = d) :
    measure_penalty_error sqrt embeddings centers radii edgeOf nodes =
      spec_penalty_error embeddings centers radii edgeOf nodes := by
  unfold measure_penalty_error spec_penalty_error
  rw [mpe_foldl_gen, zero_add]
  apply congrArg List.sum
  apply List.map_congr_left
  intro i hi
  have hu : dist2 (embeddings.getD i []) (centers.getD (whereIdx nodes (edgeOf i).1) []) ∈
      edgeDists2 embeddings centers edgeOf nodes := by
    unfold edgeDists2
    exact List.mem_flatMap.mpr ⟨i, hi, by simp⟩
  have hv : dist2 (embeddings.getD i []) (centers.getD (whereIdx nodes (edgeOf i).2) []) ∈
      edgeDists2 embeddings centers edgeOf nodes := by
    unfold edgeDists2
    exact List.mem_flatMap.mpr ⟨i, hi, by simp⟩
  obtain ⟨hu0, hu2⟩ := hs _ hu
  obtain ⟨hv0, hv2⟩ := hs _ hv
  dsimp only
  rw [penalty_term_eq (getD_nonneg hr _) hu0 hu2, penalty_term_eq (getD_nonneg hr _) hv0 hv2]

theorem c2_penalty_error_is_spec_sum_witness :
    (∀ r ∈ [(1 : ℚ), 1], 0 ≤ r) ∧
    measure_penalty_error sqrtW [[3]] [[0], [0]] [1, 1] (fun _ => (0, 1)) [0, 1] =
      spec_penalty_error [[3]] [[0], [0]] [1, 1] (fun _ => (0, 1)) [0, 1] :=
  ⟨by norm_num,
    c2_penalty_error_is_spec_sum sqrtW [[3]] [[0], [0]] [1, 1] (fun _ => (0, 1)) [0, 1]
      (by norm_num)
      (by norm_num [edgeDists2, dist2, whereIdx, sqrtW, List.range_succ, List.range_zero])⟩

/-! ## Lemmas for line-graph weight positivity -/

theorem resolve_sorted {p q : Edge} (hp : p.1 < p.2) (hq : q.1 < q.2) (hne : p ≠ q)
    (hsh : sharesEndpoint p q) :
    ∃ c s t : ℤ, resolveVertices p q = (c, s, t) ∧
      sortPair (c, s) = p ∧ sortPair (c, t) = q ∧ s ≠ t := by
  obtain ⟨a, b⟩ := p
  obtain ⟨u, v⟩ := q
  simp only at hp hq
  have hpq : ¬(a = u ∧ b = v) := by
    intro h
    exact hne (by simp [h.1, h.2])
  unfold sharesEndpoint at hsh
  simp only at hsh
  rcases hsh with h | h | h | h
  · -- the edges share their first endpoints
    subst h
    have hbv : b ≠ v := fun hbv => hpq ⟨rfl, hbv⟩
    have h1 : a ≠ b := by omega
    have h2 : a ≠ v := by omega
    refine ⟨a, b, v, ?_, sortPair_of_sorted (le_of_lt hp), sortPair_of_sorted (le_of_lt hq), hbv⟩
    simp [resolveVertices, setOf2, interL, diffL, h1, h2, hbv, h1.symm, h2.symm, hbv.symm]
  · -- edge 1's first endpoint is edge 2's second
    subst h
    have h1 : a ≠ b := by omega
    have h2 : u ≠ a := by omega
    have h3 : u ≠ b := by omega
    refine ⟨a, b, u, ?_, sortPair_of_sorted (le_of_lt hp), ?_, fun hc => h3 (hc ▸ rfl)⟩
    · simp [resolveVertices, setOf2, interL, diffL, h1, h2, h3, h1.symm, h2.symm, h3.symm]
    · unfold sortPair
      rw [if_neg (by simp only; omega)]
  · -- edge 1's second endpoint is edge 2's first
    subst h
    have h1 : a ≠ b := by omega
    have h2 : a ≠ v := by omega
    have h3 : b ≠ v := by omega
    refine ⟨b, a, v, ?_, ?_, sortPair_of_sorted (le_of_lt hq), h2⟩
    · simp [resolveVertices, setOf2, interL, diffL, h1, h2, h3, h1.symm, h2.symm, h3.symm]
    · unfold sortPair
      rw [if_neg (by simp only; omega)]
  · -- the edges share their second endpoints
    subst h
    have hau : a ≠ u := fun hc => hpq ⟨hc, rfl⟩
    have h1 : a ≠ b := by omega
    have h2 : u ≠ b := by omega
    refine ⟨b, a, u, ?_, ?_, ?_, hau⟩
    · simp [resolveVertices, setOf2, interL, diffL, h1, h2, hau, h1.symm, h2.symm, hau.symm]
    · unfold sortPair
      rw [if_neg (by simp only; omega)]
    · unfold sortPair
      rw [if_neg (by simp only; omega)]

theorem neighborsAux_produces {e : Edge} {v u : ℤ}
    (h : (if e.1 = v then some e.2 else if e.2 = v then some e.1 else none) = some u) :
    sortPair e = sortPair (v, u) := by
  obtain ⟨a, b⟩ := e
  simp only at h
  split_ifs at h with h1 h2
  · obtain rfl : a = v := h1
    obtain rfl : b = u := by simpa using h
    rfl
  · obtain rfl : b = v := h2
    obtain rfl : a = u := by simpa using h
    exact sortPair_swap _ _

theorem mem_neighborsAux {l : List Edge} {v u : ℤ} (h : u ∈ neighborsAux l v) :
    ∃ e ∈ l, sortPair e = sortPair (v, u) := by
  obtain ⟨e, he, hfe⟩ := List.mem_filterMap.mp h
  exact ⟨e, he, neighborsAux_produces hfe⟩

theorem neighborsAux_nodup {l : List Edge}
    (hpw : l.Pairwise (fun e f => sortPair e ≠ sortPair f)) (v : ℤ) :
    (neighborsAux l v).Nodup := by
  induction l with
  | nil => simp [neighborsAux]
  | cons e rest ih =>
    obtain ⟨hhead, htail⟩ := List.pairwise_cons.mp hpw
    unfold neighborsAux
    rw [List.filterMap_cons]
    cases hfe : (if e.1 = v then some e.2 else if e.2 = v then some e.1 else none) with
    | none => exact ih htail
    | some u =>
      rw [List.nodup_cons]
      refine ⟨?_, ih htail⟩
      intro hmem
      obtain ⟨f, hf, hsf⟩ := mem_neighborsAux hmem
      exact hhead f hf (by rw [neighborsAux_produces hfe, hsf])

theorem snd_mem_neighborsAux {l : List Edge} {e : Edge} (he : e ∈ l) :
    e.2 ∈ neighborsAux l e.1 :=
  List.mem_filterMap.mpr ⟨e, he, by simp⟩

theorem fst_mem_neighborsAux {l : List Edge} {e : Edge} (he : e ∈ l) (hne : e.1 ≠ e.2) :
    e.1 ∈ neighborsAux l e.2 :=
  List.mem_filterMap.mpr ⟨e, he, by rw [if_neg hne, if_pos rfl]⟩

theorem add_le_map_sum {f : ℤ → ℚ} :
    ∀ {l : List ℤ}, l.Nodup → ∀ {s t : ℤ}, s ∈ l → t ∈ l → s ≠ t →
      (∀ u ∈ l, 0 ≤ f u) → f s + f t ≤ (l.map f).sum := by
  intro l
  induction l with
  | nil => intro _ s t hs; simp at hs
  | cons a rest ih =>
    intro hnd s t hs ht hst hf
    rw [List.map_cons, List.sum_cons]
    have hfr : ∀ u ∈ rest, 0 ≤ f u := fun u hu => hf u (List.mem_cons_of_mem _ hu)
    have hsum : ∀ x ∈ rest, f x ≤ (rest.map f).sum := by
      intro x hx
      exact List.single_le_sum (by
        intro y hy
        obtain ⟨u, hu, rfl⟩ := List.mem_map.mp hy
        exact hfr u hu) _ (List.mem_map_of_mem f hx)
    rcases List.mem_cons.mp hs with rfl | hs'
    · have ht' : t ∈ rest := by
        rcases List.mem_cons.mp ht with rfl | h
        · exact absurd rfl hst
        · exact h
      have := hsum t ht'
      linarith
    · rcases List.mem_cons.mp ht with rfl | ht'
      · have := hsum s hs'
        linarith
      · have hrec := ih (List.nodup_cons.mp hnd).2 hs' ht' hst hfr
        have ha : 0 ≤ f a := hf a (List.mem_cons_self _ _)
        linarith

theorem lookupEither_eq_sorted {d : List (Edge × ℚ)} (hk : ∀ kv ∈ d, kv.1.1 < kv.1.2)
    (a b : ℤ) : lookupEither d a b = (findVal d (sortPair (a, b))).getD 0 := by
  unfold lookupEither
  rcases lt_trichotomy a b with hab | rfl | hba
  · rw [sortPair_of_sorted (le_of_lt hab)]
    cases hv : findVal d (a, b) with
    | some w => simp
    | none =>
      have h2 : findVal d (b, a) = none := findVal_eq_none (by
        intro kv hkv hkey
        have := hk kv hkv
        rw [hkey] at this
        simp only at this
        omega)
      simp [h2]
  · rw [sortPair_of_sorted (le_refl a)]
    cases hv : findVal d (a, a) with
    | some w => simp
    | none => simp [hv]
  · have h1 : findVal d (a, b) = none := findVal_eq_none (by
      intro kv hkv hkey
      have := hk kv hkv
      rw [hkey] at this
      simp only at this
      omega)
    rw [h1]
    have hsp : sortPair (a, b) = (b, a) := by
      unfold sortPair
      rw [if_neg (by simp only; omega)]
    rw [hsp]

theorem lookupEither_nonneg {d : List (Edge × ℚ)} (hv : ∀ kv ∈ d, 0 ≤ kv.2) (a b : ℤ) :
    0 ≤ lookupEither d a b := by
  unfold lookupEither
  cases h1 : findVal d (a, b) with
  | some w => simpa using hv ((a, b), w) (findVal_mem h1)
  | none =>
    cases h2 : findVal d (b, a) with
    | some w => simpa using hv ((b, a), w) (findVal_mem h2)
    | none => simp [h2]

theorem node_weight_lower (log : ℚ → ℚ) {eps : ℚ} (heps : 0 ≤ eps) {G : Graph}
    (hwf : WellFormed G) {ep fq : Edge} (hep : ep ∈ G.edges) (hfq : fq ∈ G.edges)
    {c s t : ℤ} (hcs : sortPair (c, s) = sortPair ep) (hct : sortPair (c, t) = sortPair fq)
    (hst : s ≠ t) :
    edgeWeight log eps G ep + edgeWeight log eps G fq ≤
      node_weight G (modify_edge_weights log eps G) c := by
  obtain ⟨hnodes, hloop, hends, hpw⟩ := hwf
  have hkeys := mew_key_lt log eps hloop
  have hvals : ∀ kv ∈ modify_edge_weights log eps G, 0 ≤ kv.2 := fun kv hkv =>
    le_trans heps (mew_val_ge log eps G kv hkv)
  have hmem : ∀ {g : Edge} {x : ℤ}, g ∈ G.edges → sortPair (c, x) = sortPair g →
      x ∈ neighborsOf G c := by
    intro g x hg hsp
    rcases sortPair_eq_or hsp.symm with hgx | hgx
    · have hm : g.2 ∈ neighborsAux G.edges g.1 := snd_mem_neighborsAux hg
      rw [hgx] at hm
      exact hm
    · have hm : g.1 ∈ neighborsAux G.edges g.2 := fst_mem_neighborsAux hg (hloop g hg)
      obtain ⟨ga, gb⟩ := g
      simp only [Prod.mk.injEq] at hgx
      obtain ⟨rfl, rfl⟩ := hgx
      exact hm
  have hsmem : s ∈ neighborsOf G c := hmem hep hcs
  have htmem : t ∈ neighborsOf G c := hmem hfq hct
  have hlook : ∀ {g : Edge} {x : ℤ}, g ∈ G.edges → sortPair (c, x) = sortPair g →
      lookupEither (modify_edge_weights log eps G) c x = edgeWeight log eps G g := by
    intro g x hg hsp
    rw [lookupEither_eq_sorted hkeys, hsp, mew_lookup log eps G hg]
    rfl
  unfold node_weight
  have hb := add_le_map_sum (f := fun u => lookupEither (modify_edge_weights log eps G) c u)
    (neighborsAux_nodup hpw c) hsmem htmem hst
    (fun u hu => lookupEither_nonneg hvals c u)
  dsimp only at hb
  rw [hlook hep hcs, hlook hfq hct] at hb
  exact hb

theorem weightContriSrc1_nonneg (a b : ℕ) : 0 ≤ weightContriSrcEdge1 a b := by
  unfold weightContriSrcEdge1
  split_ifs
  · norm_num
  · positivity

theorem weightContriSrc2_nonneg (a b : ℕ) : 0 ≤ weightContriSrcEdge2 a b := by
  unfold weightContriSrcEdge2
  split_ifs
  · norm_num
  · positivity

theorem weightContriDest_fst_nonneg {w denom : ℚ} (hw : 0 ≤ w) (hd : 0 ≤ denom) :
    0 ≤ (weightContriDest w denom).1 := by
  unfold weightContriDest
  split_ifs
  · norm_num
  · exact div_nonneg hw hd

/-- Claim C8: for any well-formed input graph (no self-loops, no duplicate
edges, endpoints among the nodes) with at least 2 edges, every line-graph
edge weight computed by `build_weighted_line_graph` is non-negative (and, the
embedding being exact rational arithmetic, finite). -/
theorem c8_line_graph_weights_nonneg (log : ℚ → ℚ) (G : Graph) (L : List (Edge × Edge))
    (hwf : WellFormed G) (hL : ∀ pq ∈ L, IsLineEdge G pq.1 pq.2)
    (hE : 2 ≤ G.edges.length) :
    ∀ x ∈ (build_weighted_line_graph log G L).1, 0 ≤ x.2 := by
  intro x hx
  simp only [build_weighted_line_graph] at hx
  obtain ⟨le, hle, rfl⟩ := List.mem_map.mp hx
  obtain ⟨⟨ep, hep, hps⟩, ⟨fq, hfq, hqs⟩, hne, hsh⟩ := hL le hle
  have hloop := hwf.2.1
  have hp1 : le.1.1 < le.1.2 := by rw [← hps]; exact sortPair_lt (hloop ep hep)
  have hq1 : le.2.1 < le.2.2 := by rw [← hqs]; exact sortPair_lt (hloop fq hfq)
  obtain ⟨c, s, t, hres, hcs, hct, hst⟩ := resolve_sorted hp1 hq1 hne hsh
  have heps : (0 : ℚ) ≤ 1 / 100000 := by norm_num
  have hwp : findVal (modify_edge_weights log (1 / 100000) G) le.1
      = some (edgeWeight log (1 / 100000) G ep) := by
    rw [← hps]
    exact mew_lookup log _ G hep
  have hwq : findVal (modify_edge_weights log (1 / 100000) G) le.2
      = some (edgeWeight log (1 / 100000) G fq) := by
    rw [← hqs]
    exact mew_lookup log _ G hfq
  have hwp_ge : (1 / 100000 : ℚ) ≤ edgeWeight log (1 / 100000) G ep := le_max_right _ _
  have hwq_ge : (1 / 100000 : ℚ) ≤ edgeWeight log (1 / 100000) G fq := le_max_right _ _
  have hb := node_weight_lower log heps hwf hep hfq (hcs.trans hps.symm) (hct.trans hqs.symm) hst
  have hd1 : 0 < node_weight G (modify_edge_weights log (1 / 100000) G) c -
      (findVal (modify_edge_weights log (1 / 100000) G) le.1).getD 0 := by
    rw [hwp, Option.getD_some]
    linarith
  have hd2 : 0 < node_weight G (modify_edge_weights log (1 / 100000) G) c -
      (findVal (modify_edge_weights log (1 / 100000) G) le.2).getD 0 := by
    rw [hwq, Option.getD_some]
    linarith
  show 0 ≤ (lineEdgeData (degree G) (modify_edge_weights log (1 / 100000) G)
    (node_weight G (modify_edge_weights log (1 / 100000) G)) le.1 le.2).1
  simp only [lineEdgeData, hres]
  apply div_nonneg _ (by norm_num)
  apply add_nonneg
  · refine mul_nonneg (weightContriSrc1_nonneg _ _) (weightContriDest_fst_nonneg ?_ (le_of_lt hd1))
    rw [hwq, Option.getD_some]
    linarith
  · refine mul_nonneg (weightContriSrc2_nonneg _ _) (weightContriDest_fst_nonneg ?_ (le_of_lt hd2))
    rw [hwp, Option.getD_some]
    linarith

theorem c8_line_graph_weights_nonneg_witness :
    WellFormed P3 ∧ 2 ≤ P3.edges.length ∧
    0 ≤ ((build_weighted_line_graph (fun _ => 0) P3 [((0, 1), (1, 2))]).1.getD 0
      (((0, 0), (0, 0)), 0)).2 :=
  ⟨by decide, by decide,
    c8_line_graph_weights_nonneg (fun _ => 0) P3 [((0, 1), (1, 2))] (by decide) (by decide)
      (by decide) _ (getD_mem _ (by simp [build_weighted_line_graph]))⟩

/-! ## Lemmas for the sphere initializer -/

theorem filterMap_filter_other (n : ℤ) :
    ∀ l : List Edge,
      l.filterMap (fun e => if e.1 = n then some e.2 else if e.2 = n then some e.1 else none)
        = (l.filter (fun e => decide (e.1 = n ∨ e.2 = n))).map (otherEnd n) := by
  intro l
  induction l with
  | nil => rfl
  | cons e rest ih =>
    rw [List.filterMap_cons, List.filter_cons]
    by_cases h1 : e.1 = n
    · simp [h1, otherEnd, ih]
    · by_cases h2 : e.2 = n
      · simp [h1, h2, otherEnd, ih]
      · simp [h1, h2, ih]

theorem neighborsOf_eq_incident (G : Graph) (n : ℤ) :
    neighborsOf G n = (incidentEdges G n).map (otherEnd n) :=
  filterMap_filter_other n G.edges

theorem edgeIndexOf_eq {G : Graph} (hwf : WellFormed G) {n : ℤ} {e : Edge}
    (he : e ∈ G.edges) (hinc : e.1 = n ∨ e.2 = n) :
    edgeIndexOf (buildEdgeMap G.edges 0) n (otherEnd n e) =
      (findVal (buildEdgeMap G.edges 0) e).getD 0 := by
  obtain ⟨i, hi⟩ := Option.isSome_iff_exists.mp ((bem_isSome 0).mpr he)
  by_cases h1 : e.1 = n
  · have hoe : otherEnd n e = e.2 := by unfold otherEnd; rw [if_pos h1]
    have hkey : ((n, e.2) : Edge) = e := by
      obtain ⟨a, b⟩ := e
      simp only at h1
      rw [h1]
    unfold edgeIndexOf
    rw [hoe, hkey, hi]
    rfl
  · have h2 : e.2 = n := hinc.resolve_left h1
    have hoe : otherEnd n e = e.1 := by unfold otherEnd; rw [if_neg h1]
    have hkey : ((e.1, n) : Edge) = e := by
      obtain ⟨a, b⟩ := e
      simp only at h2
      rw [h2]
    have hnot : ((n, e.1) : Edge) ∉ G.edges := by
      intro hmem
      have hne : ((n, e.1) : Edge) ≠ e := by
        intro hc
        exact h1 (congrArg Prod.fst hc).symm
      have hsym : Symmetric (fun e f : Edge => sortPair e ≠ sortPair f) :=
        fun x y hxy h => hxy h.symm
      exact (hwf.2.2.2.forall hsym) hmem he hne
        (by rw [← hkey]; exact sortPair_swap e.1 n)
    have hnone : findVal (buildEdgeMap G.edges 0) ((n, e.1) : Edge) = none := by
      rw [← Option.not_isSome_iff_eq_none]
      intro hs
      exact hnot ((bem_isSome 0).mp hs)
    unfold edgeIndexOf
    rw [hoe, hnone, hkey, hi]

theorem whereIdx_getD {l : List ℤ} {v : ℤ} (h : v ∈ l) :
    whereIdx l v < l.length ∧ l.getD (whereIdx l v) 0 = v := by
  induction l with
  | nil => simp at h
  | cons x xs ih =>
    by_cases hx : x = v
    · subst hx
      unfold whereIdx
      rw [if_pos rfl]
      simp
    · rcases List.mem_cons.mp h with rfl | h'
      · exact absurd rfl hx
      · obtain ⟨hlt, hget⟩ := ih h'
        unfold whereIdx
        rw [if_neg hx]
        simp only [List.length_cons, List.getD_cons_succ]
        exact ⟨by omega, hget⟩

theorem neighbor_mem_nodes {G : Graph} (hwf : WellFormed G) {n u : ℤ}
    (hu : u ∈ neighborsOf G n) : u ∈ G.nodes := by
  obtain ⟨e, he, hf⟩ := List.mem_filterMap.mp hu
  split_ifs at hf with h1 h2
  · obtain rfl : e.2 = u := by simpa using hf
    exact (hwf.2.2.1 e he).2
  · obtain rfl : e.1 = u := by simpa using hf
    exact (hwf.2.2.1 e he).1

theorem collectSome_isSome :
    ∀ {l : List (Option ℚ)}, (∀ x ∈ l, x.isSome) →
      ∃ xs, collectSome l = some xs ∧ xs.length = l.length ∧
        ∀ (j : ℕ) (d : ℚ), l.getD j (some d) = some (xs.getD j d) := by
  intro l
  induction l with
  | nil => intro _; exact ⟨[], rfl, rfl, fun j d => by simp⟩
  | cons x rest ih =>
    intro h
    obtain ⟨a, rfl⟩ := Option.isSome_iff_exists.mp (h x (List.mem_cons_self _ _))
    obtain ⟨xs, hcoll, hlen, hget⟩ := ih (fun y hy => h y (List.mem_cons_of_mem _ hy))
    refine ⟨a :: xs, ?_, by simp [hlen], ?_⟩
    · unfold collectSome
      rw [hcoll]
    · intro j d
      cases j with
      | zero => simp
      | succ k => simpa using hget k d

theorem initCenter_eq_spec {G : Graph} (hwf : WellFormed G) (emb : List (List ℚ)) (D : ℕ)
    (n : ℤ) :
    initCenter emb (buildEdgeMap G.edges 0) D n (neighborsOf G n) =
      specCenter emb (buildEdgeMap G.edges 0) D G n := by
  unfold initCenter specCenter
  have hlist : (neighborsOf G n).map
        (fun u => emb.getD (edgeIndexOf (buildEdgeMap G.edges 0) n u) (zeroVec D))
      = (incidentEdges G n).map
        (fun e => emb.getD ((findVal (buildEdgeMap G.edges 0) e).getD 0) (zeroVec D)) := by
    rw [neighborsOf_eq_incident, List.map_map]
    apply List.map_congr_left
    intro e he
    obtain ⟨hee, hcond⟩ := List.mem_filter.mp he
    simp only [Function.comp_apply]
    rw [edgeIndexOf_eq hwf hee (by simpa using hcond)]
  have hlen : (neighborsOf G n).length = (incidentEdges G n).length := by
    rw [neighborsOf_eq_incident, List.length_map]
  rw [hlist, hlen]

theorem initCenters_getD {emb : List (List ℚ)} {G : Graph} {D : ℕ}
    (hwf : WellFormed G) {j : ℕ} (hj : j < G.nodes.length) :
    (initCenters emb G.nodes (neighborsOf G) (buildEdgeMap G.edges 0) D).getD j [] =
      specCenter emb (buildEdgeMap G.edges 0) D G (G.nodes.getD j 0) := by
  unfold initCenters
  rw [map_range_getD _ [] G.nodes.length j hj]
  exact initCenter_eq_spec hwf emb D _

theorem initRadius_eq_spec {sqrt : ℚ → ℚ} {emb : List (List ℚ)} {G : Graph} {D : ℕ}
    (hwf : WellFormed G) (hne : ∀ v ∈ G.nodes, neighborsOf G v ≠ [])
    {j : ℕ} (hj : j < G.nodes.length) :
    initRadius sqrt (initCenters emb G.nodes (neighborsOf G) (buildEdgeMap G.edges 0) D)
        G.nodes j (neighborsOf G (G.nodes.getD j 0)) =
      some (specRadius sqrt emb (buildEdgeMap G.edges 0) D G (G.nodes.getD j 0)) := by
  unfold initRadius specRadius
  have hmapeq : (neighborsOf G (G.nodes.getD j 0)).map (fun u =>
        sqrt (dist2
          ((initCenters emb G.nodes (neighborsOf G) (buildEdgeMap G.edges 0) D).getD j [])
          ((initCenters emb G.nodes (neighborsOf G) (buildEdgeMap G.edges 0) D).getD
            (whereIdx G.nodes u) [])))
      = (neighborsOf G (G.nodes.getD j 0)).map (fun u =>
        sqrt (dist2 (specCenter emb (buildEdgeMap G.edges 0) D G (G.nodes.getD j 0))
          (specCenter emb (buildEdgeMap G.edges 0) D G u))) := by
    apply List.map_congr_left
    intro u hu
    have hun : u ∈ G.nodes := neighbor_mem_nodes hwf hu
    obtain ⟨hlt, hget⟩ := whereIdx_getD hun
    rw [initCenters_getD hwf hj, initCenters_getD hwf hlt, hget]
  rw [hmapeq]
  have hnonnil : neighborsOf G (G.nodes.getD j 0) ≠ [] := hne _ (getD_mem 0 hj)
  cases hl : neighborsOf G (G.nodes.getD j 0) with
  | nil => exact absurd hl hnonnil
  | cons a rest => rfl

/-- Claim C3: for a well-formed graph in which every node has at least one
neighbor (the spec's precondition for the initializer), `initialize_params`
succeeds, sets each node's center to the arithmetic mean of the embedding
vectors of all edges incident to that node (each edge looked up in the
edge-index map in either endpoint orientation), and sets each node's radius
to the maximum Euclidean distance between that node's center and the centers
of its neighboring nodes — not its incident edge embeddings. -/
theorem c3_sphere_initializer (sqrt : ℚ → ℚ) (emb : List (List ℚ)) (G : Graph) (D : ℕ)
    (i : ℕ) (hwf : WellFormed G) (hne : ∀ v ∈ G.nodes, neighborsOf G v ≠ [])
    (hi : i < G.nodes.length) :
    (init_params sqrt emb G.nodes (neighborsOf G) (buildEdgeMap G.edges 0) D).isSome ∧
    ((init_params sqrt emb G.nodes (neighborsOf G) (buildEdgeMap G.edges 0) D).getD
        ([], [])).1.getD i [] =
      specCenter emb (buildEdgeMap G.edges 0) D G (G.nodes.getD i 0) ∧
    ((init_params sqrt emb G.nodes (neighborsOf G) (buildEdgeMap G.edges 0) D).getD
        ([], [])).2.getD i 0 =
      specRadius sqrt emb (buildEdgeMap G.edges 0) D G (G.nodes.getD i 0) := by
  have hrsome : ∀ x ∈ (List.range G.nodes.length).map (fun j =>
      initRadius sqrt (initCenters emb G.nodes (neighborsOf G) (buildEdgeMap G.edges 0) D)
        G.nodes j (neighborsOf G (G.nodes.getD j 0))), x.isSome := by
    intro x hx
    obtain ⟨j, hjr, rfl⟩ := List.mem_map.mp hx
    rw [initRadius_eq_spec hwf hne (List.mem_range.mp hjr)]
    rfl
  obtain ⟨xs, hcoll, hxlen, hxget⟩ := collectSome_isSome hrsome
  have hip : init_params sqrt emb G.nodes (neighborsOf G) (buildEdgeMap G.edges 0) D =
      some (initCenters emb G.nodes (neighborsOf G) (buildEdgeMap G.edges 0) D, xs) := by
    simp only [init_params]
    rw [hcoll]
  refine ⟨by rw [hip]; rfl, ?_, ?_⟩
  · rw [hip]
    exact initCenters_getD hwf hi
  · rw [hip]
    have h1 := hxget i 0
    rw [map_range_getD _ (some 0) G.nodes.length i hi, initRadius_eq_spec hwf hne hi] at h1
    exact (Option.some.inj h1).symm

theorem c3_sphere_initializer_witness :
    WellFormed P3 ∧
    (init_params (fun _ => 0) [[0], [6]] P3.nodes (neighborsOf P3)
      (buildEdgeMap P3.edges 0) 1).isSome ∧
    ((init_params (fun _ => 0) [[0], [6]] P3.nodes (neighborsOf P3)
        (buildEdgeMap P3.edges 0) 1).getD ([], [])).1.getD 1 [] =
      specCenter [[0], [6]] (buildEdgeMap P3.edges 0) 1 P3 (P3.nodes.getD 1 0) ∧
    ((init_params (fun _ => 0) [[0], [6]] P3.nodes (neighborsOf P3)
        (buildEdgeMap P3.edges 0) 1).getD ([], [])).2.getD 1 0 =
      specRadius (fun _ => 0) [[0], [6]] (buildEdgeMap P3.edges 0) 1 P3 (P3.nodes.getD 1 0) :=
  ⟨by decide,
    (c3_sphere_initializer (fun _ => 0) [[0], [6]] P3 1 1 (by decide) (by decide) (by decide)).1,
    (c3_sphere_initializer (fun _ => 0) [[0], [6]] P3 1 1 (by decide) (by decide) (by decide)).2.1,
    (c3_sphere_initializer (fun _ => 0) [[0], [6]] P3 1 1 (by decide) (by decide) (by decide)).2.2⟩
